import Mathlib

/-!
# Verification of `protofixer` (`src/lib.rs`)

A shallow embedding of the `protofixer` Rust library, which reorders the
top-level fields of a serialized Protocol-Buffers message into ascending
field-id order, together with proofs of the specified properties.

Modelling conventions:
* A byte buffer `&[u8]` is a `List Nat` whose elements are the byte values;
  the bitwise operations of the source (`& 0x7F`, `& 0x80`, `>> 3`, `& 0x7`)
  are translated literally using `Nat` bitwise operators, so no boundedness
  side conditions are needed.
* `u128` arithmetic is modelled exactly: the accumulator update
  `data = (data << 7) | (byte & 0x7F)` keeps its wrap-around `% 2^128`
  (Rust's `<<` on `u128` discards the shifted-out bits).
* `usize` values (offsets, lengths) are modelled as `Nat`.  The source's only
  explicit bound check, `value > usize::MAX as u128`, is kept literally with
  `USIZE_MAX = 2^64 - 1` (64-bit host).  Additions on these quantities that
  would overflow a real `usize` abort a (debug) Rust build; in the model the
  unbounded sum then necessarily fails the very next slice-bound check, so
  both are mapped to the `panic` outcome below.
* Rust panics are not ordinary return values, so the result type distinguishes
  them from the library's `ParseError`: `Err.parseError` is the source's
  `ParseError`, while `Err.panic` marks the places where the source performs a
  slicing operation (`&msg[offset..]`, `&msg[start..end]`,
  `copy_from_slice`) that panics when its bounds are violated.
-/

namespace Protofixer

/-- Outcomes of a fallible operation: the library's `ParseError`, or a Rust
panic (slice index out of range / `copy_from_slice` length mismatch). -/
inductive Err where
  | parseError
  | panic
deriving DecidableEq, Repr

/-- `2^128`, the modulus of the source's `u128` accumulator. -/
def U128MOD : Nat := 2 ^ 128

/-- `usize::MAX as u128` on a 64-bit host. -/
def USIZE_MAX : Nat := 2 ^ 64 - 1

/-- `struct Chunk { id: u128, offset: usize, length: usize }` from the source:
one encoded field entry, referencing the byte range
`[offset, offset + length)` of the message buffer. -/
structure Chunk where
  id : Nat
  offset : Nat
  length : Nat
deriving DecidableEq, Repr

/-- One iteration of the `read_varint` accumulation:
`data = (data << 7) | (byte & 0x7F)` on `u128`. -/
def varintStep (data b : Nat) : Nat := ((data <<< 7) % U128MOD) ||| (b &&& 0x7F)

/-- The `while offset < buf_size` loop of `read_varint`, expressed as
recursion over the byte list: consume bytes, accumulating with `varintStep`,
and stop after the first byte whose high bit (`0x80`) is clear or when the
input is exhausted.  Returns the accumulated value and the number of bytes
consumed. -/
def readVarintLoop : List Nat → Nat → Nat × Nat
  | [], data => (data, 0)
  | b :: rest, data =>
    let d := varintStep data b
    if b &&& 0x80 == 0 then (d, 1)
    else
      let p := readVarintLoop rest d
      (p.1, p.2 + 1)

/-- `fn read_varint(bytes: &[u8]) -> Result<(u128, usize), ParseError>` from
the source: fails on an empty slice, otherwise runs the accumulation loop. -/
def read_varint (bytes : List Nat) : Except Err (Nat × Nat) :=
  if bytes.isEmpty then .error .parseError
  else .ok (readVarintLoop bytes 0)

/-- The bytes consumed by a varint read: the prefix of the input up to and
including the first byte whose high bit is clear, or the whole input when
every byte has the continuation bit set. -/
def consumed : List Nat → List Nat
  | [] => []
  | b :: rest => if b &&& 0x80 == 0 then [b] else b :: consumed rest

/-- Left fold of the varint accumulation step over a byte list, starting
from `0` (most-significant 7-bit group first). -/
def varintFold (l : List Nat) : Nat := l.foldl varintStep 0

theorem readVarintLoop_eq_fold (l : List Nat) :
    ∀ d : Nat, readVarintLoop l d = ((consumed l).foldl varintStep d, (consumed l).length) := by
  induction l with
  | nil => intro d; simp [readVarintLoop, consumed]
  | cons b rest ih =>
    intro d
    by_cases hb : b &&& 0x80 == 0
    · simp [readVarintLoop, consumed, hb]
    · simp [readVarintLoop, consumed, hb, ih]

theorem consumed_length_le (l : List Nat) : (consumed l).length ≤ l.length := by
  induction l with
  | nil => simp [consumed]
  | cons b rest ih =>
    by_cases hb : b &&& 0x80 == 0
    · simp [consumed, hb]
    · simp [consumed, hb]; omega

theorem consumed_length_pos (l : List Nat) (h : l ≠ []) : 1 ≤ (consumed l).length := by
  cases l with
  | nil => simp at h
  | cons b rest =>
    by_cases hb : b &&& 0x80 == 0 <;> simp [consumed, hb]

theorem consumed_ne_nil (l : List Nat) (h : l ≠ []) : consumed l ≠ [] := by
  have := consumed_length_pos l h
  intro hc
  rw [hc] at this
  simp at this

/-- On a non-empty input `read_varint` succeeds, returning the fold of the
consumed prefix and its length. -/
theorem read_varint_ok (l : List Nat) (h : l ≠ []) :
    read_varint l = .ok (varintFold (consumed l), (consumed l).length) := by
  simp [read_varint, h, readVarintLoop_eq_fold, varintFold]

/-- Inversion: a successful `read_varint` determines value and count. -/
theorem read_varint_inv {l : List Nat} {v n : Nat}
    (h : read_varint l = .ok (v, n)) :
    l ≠ [] ∧ v = varintFold (consumed l) ∧ n = (consumed l).length := by
  by_cases hl : l = []
  · subst hl; simp [read_varint] at h
  · rw [read_varint_ok l hl] at h
    refine ⟨hl, ?_, ?_⟩ <;> cases h <;> rfl

theorem read_varint_bounds {l : List Nat} {v n : Nat}
    (h : read_varint l = .ok (v, n)) : 1 ≤ n ∧ n ≤ l.length := by
  obtain ⟨hl, -, hn⟩ := read_varint_inv h
  subst hn
  exact ⟨consumed_length_pos l hl, consumed_length_le l⟩

/-- `read_varint` fails only on the empty slice, and then with `ParseError`. -/
theorem read_varint_error_inv {l : List Nat} {e : Err}
    (h : read_varint l = .error e) : l = [] ∧ e = .parseError := by
  by_cases hl : l = []
  · subst hl
    have hre : read_varint ([] : List Nat) = .error .parseError := rfl
    rw [hre] at h
    cases h
    exact ⟨rfl, rfl⟩
  · rw [read_varint_ok l hl] at h
    cases h

/-- The body of one iteration of the `parse_message` loop up to the point
where the chunk extent is known: decode the key varint, split it into
`field_id = key >> 3` and `wire_type = key & 0x7`, determine the field length
by wire type (decoding a second varint for wire types 0 and 2, with the
source's `value > usize::MAX as u128` overflow guard for wire type 2), and
return `(field_id, total_length)` with `total_length = len + field_length`. -/
def parse_field (bytes : List Nat) : Except Err (Nat × Nat) :=
  match read_varint bytes with
  | .error e => .error e
  | .ok (key, len) =>
    let field_id := key >>> 3
    match key &&& 0x7 with
    | 0 =>
      match read_varint (bytes.drop len) with
      | .error e => .error e
      | .ok (_, len2) => .ok (field_id, len + len2)
    | 1 => .ok (field_id, len + 8)
    | 2 =>
      match read_varint (bytes.drop len) with
      | .error e => .error e
      | .ok (value, len2) =>
        if USIZE_MAX < value then .error .parseError
        else .ok (field_id, len + (value + len2))
    | 3 => .error .parseError
    | 4 => .error .parseError
    | 5 => .ok (field_id, len + 4)
    | _ => .error .parseError

theorem parse_field_total_pos {bytes : List Nat} {id total : Nat}
    (h : parse_field bytes = .ok (id, total)) : 1 ≤ total := by
  unfold parse_field at h
  cases hk : read_varint bytes with
  | error e => rw [hk] at h; cases h
  | ok p =>
    obtain ⟨key, len⟩ := p
    rw [hk] at h
    have hlen := (read_varint_bounds hk).1
    simp only at h
    split at h <;>
      first
        | (simp at h <;> omega)
        | (split at h <;>
            first
              | (simp at h <;> omega)
              | (split at h <;> simp at h <;> omega))

/-- The `while bytes.len() > 0` loop of `parse_message`.  The invariant
`bytes = msg.drop offset` of the source (`bytes = &msg[offset..]`) lets the
loop be phrased on the suffix alone: decode one field, record its chunk,
advance by its total length, and re-slice.  The source's re-slicing
`&msg[offset..]` panics when the new offset exceeds the buffer length
(`total > bytes.len()`); that is the `.error .panic` branch. -/
def parse_loop (bytes : List Nat) (offset : Nat) : Except Err (List Chunk) :=
  match bytes with
  | [] => .ok []
  | b :: bs =>
    match hf : parse_field (b :: bs) with
    | .error e => .error e
    | .ok (field_id, total) =>
      if total ≤ bs.length + 1 then
        match parse_loop ((b :: bs).drop total) (offset + total) with
        | .error e => .error e
        | .ok rest => .ok ({ id := field_id, offset := offset, length := total } :: rest)
      else .error .panic
termination_by bytes.length
decreasing_by
  have := parse_field_total_pos hf
  simp only [List.length_drop, List.length_cons]
  omega

/-- `fn parse_message(msg: &[u8]) -> Result<Vec<Chunk>, ParseError>` from the
source: scan the buffer from offset `0`, producing the chunk sequence in
encounter order. -/
def parse_message (msg : List Nat) : Except Err (List Chunk) :=
  parse_loop msg 0

/-- `fn is_sorted(chunks: &[Chunk]) -> bool` from the source: walk the
sequence keeping the previous id, returning `false` on the first `cur < prev`
inversion. -/
def is_sorted_go (prev : Nat) : List Chunk → Bool
  | [] => true
  | c :: rest => if c.id < prev then false else is_sorted_go c.id rest

def is_sorted (chunks : List Chunk) : Bool :=
  match chunks with
  | [] => true
  | c :: rest => is_sorted_go c.id rest

/-- The comparison used by the source's `chunks.sort_by_key(|ck| ck.id)`:
ascending field id. -/
def chunkLE (a b : Chunk) : Prop := a.id ≤ b.id

instance : DecidableRel chunkLE := fun a b => Nat.decLe a.id b.id

instance : IsTotal Chunk chunkLE := ⟨fun a b => Nat.le_total a.id b.id⟩

instance : IsTrans Chunk chunkLE := ⟨fun _ _ _ h1 h2 => Nat.le_trans h1 h2⟩

/-- The stable ascending sort of `chunks.sort_by_key(|ck| ck.id)`.  Rust's
slice sort is stable, so its result is the unique permutation of the input
that is sorted by id and keeps equal-id elements in their original order;
insertion sort with `chunkLE` computes exactly that permutation. -/
def sort_chunks (chunks : List Chunk) : List Chunk :=
  List.insertionSort chunkLE chunks

/-- The byte range `&msg[ck.offset .. ck.offset + ck.length]` that a chunk
references (as a value; bounds are checked separately where the source's
slicing panics). -/
def chunkSlice (msg : List Nat) (c : Chunk) : List Nat :=
  (msg.drop c.offset).take c.length

/-- The concatenation loop of `do_sort`: for each chunk in order, slice
`&msg[start..end]` — panicking (`.error .panic`) when `end` exceeds the
buffer length, as the Rust indexing would — and append it to the output. -/
def concat_chunks (chunks : List Chunk) (msg : List Nat) : Except Err (List Nat) :=
  match chunks with
  | [] => .ok []
  | c :: rest =>
    if c.offset + c.length ≤ msg.length then
      match concat_chunks rest msg with
      | .error e => .error e
      | .ok tail => .ok (chunkSlice msg c ++ tail)
    else .error .panic

/-- `fn do_sort(chunks: &mut [Chunk], msg: &[u8]) -> Vec<u8>` from the
source: stable-sort the chunks by id, then concatenate their byte ranges. -/
def do_sort (chunks : List Chunk) (msg : List Nat) : Except Err (List Nat) :=
  concat_chunks (sort_chunks chunks) msg

/-- `Cow<[u8]>`: the result of `sort_protobuf_message` is either a borrow of
the input buffer (zero-copy fast path) or a freshly owned buffer. -/
inductive Cow where
  | borrowed (bytes : List Nat)
  | owned (bytes : List Nat)
deriving DecidableEq, Repr

/-- The byte contents of a `Cow` result. -/
def Cow.bytes : Cow → List Nat
  | .borrowed l => l
  | .owned l => l

/-- `pub fn is_protobuf_message_sorted(msg: &[u8]) -> Result<bool, ParseError>`. -/
def is_protobuf_message_sorted (msg : List Nat) : Except Err Bool :=
  match parse_message msg with
  | .error e => .error e
  | .ok chunks => .ok (is_sorted chunks)

/-- `pub fn sort_protobuf_message(msg: &[u8]) -> Result<Cow<[u8]>, ParseError>`. -/
def sort_protobuf_message (msg : List Nat) : Except Err Cow :=
  match parse_message msg with
  | .error e => .error e
  | .ok chunks =>
    if is_sorted chunks then .ok (.borrowed msg)
    else
      match do_sort chunks msg with
      | .error e => .error e
      | .ok sorted => .ok (.owned sorted)

/-- `pub fn sort_protobuf_message_inplace(msg: &mut [u8]) -> Result<(), ParseError>`.
The model returns the final contents of the buffer (`msg` itself when already
sorted, otherwise the reassembled bytes written back by `copy_from_slice`,
which panics — `.error .panic` — when the lengths differ). -/
def sort_protobuf_message_inplace (msg : List Nat) : Except Err (List Nat) :=
  match parse_message msg with
  | .error e => .error e
  | .ok chunks =>
    if is_sorted chunks then .ok msg
    else
      match do_sort chunks msg with
      | .error e => .error e
      | .ok sorted =>
        if sorted.length = msg.length then .ok sorted else .error .panic

/-! ### Equation lemmas for `parse_loop` and introduction/inversion lemmas
for `parse_field` -/

theorem parse_loop_nil (off : Nat) : parse_loop [] off = .ok [] := by
  simp [parse_loop]

theorem parse_loop_cons_err {b : Nat} {bs : List Nat} {e : Err} (off : Nat)
    (hf : parse_field (b :: bs) = .error e) :
    parse_loop (b :: bs) off = .error e := by
  rw [parse_loop]
  split
  · rename_i e' heq
    rw [hf] at heq
    cases heq
    rfl
  · rename_i fid total heq
    rw [hf] at heq
    cases heq

theorem parse_loop_cons_panic {b : Nat} {bs : List Nat} {id total : Nat} (off : Nat)
    (hf : parse_field (b :: bs) = .ok (id, total)) (hgt : bs.length + 1 < total) :
    parse_loop (b :: bs) off = .error .panic := by
  rw [parse_loop]
  split
  · rename_i e' heq
    rw [hf] at heq
    cases heq
  · rename_i fid total' heq
    rw [hf] at heq
    cases heq
    rw [if_neg (by omega)]

theorem parse_loop_cons_ok {b : Nat} {bs : List Nat} {id total : Nat} (off : Nat)
    (hf : parse_field (b :: bs) = .ok (id, total)) (hle : total ≤ bs.length + 1) :
    parse_loop (b :: bs) off =
      match parse_loop ((b :: bs).drop total) (off + total) with
      | .error e => .error e
      | .ok rest => .ok ({ id := id, offset := off, length := total } :: rest) := by
  rw [parse_loop]
  split
  · rename_i e' heq
    rw [hf] at heq
    cases heq
  · rename_i fid total' heq
    rw [hf] at heq
    cases heq
    rw [if_pos hle]

theorem parse_field_wire0 {bytes : List Nat} {key len v2 len2 : Nat}
    (hk : read_varint bytes = .ok (key, len)) (hw : key &&& 0x7 = 0)
    (h2 : read_varint (bytes.drop len) = .ok (v2, len2)) :
    parse_field bytes = .ok (key >>> 3, len + len2) := by
  simp only [parse_field, hk, hw, h2]

theorem parse_field_wire1 {bytes : List Nat} {key len : Nat}
    (hk : read_varint bytes = .ok (key, len)) (hw : key &&& 0x7 = 1) :
    parse_field bytes = .ok (key >>> 3, len + 8) := by
  simp only [parse_field, hk, hw]

theorem parse_field_wire2 {bytes : List Nat} {key len v2 len2 : Nat}
    (hk : read_varint bytes = .ok (key, len)) (hw : key &&& 0x7 = 2)
    (h2 : read_varint (bytes.drop len) = .ok (v2, len2)) (hv : ¬ USIZE_MAX < v2) :
    parse_field bytes = .ok (key >>> 3, len + (v2 + len2)) := by
  simp only [parse_field, hk, hw, h2]
  rw [if_neg hv]

theorem parse_field_wire5 {bytes : List Nat} {key len : Nat}
    (hk : read_varint bytes = .ok (key, len)) (hw : key &&& 0x7 = 5) :
    parse_field bytes = .ok (key >>> 3, len + 4) := by
  simp only [parse_field, hk, hw]

theorem parse_field_wire2_overflow {bytes : List Nat} {key len v2 len2 : Nat}
    (hk : read_varint bytes = .ok (key, len)) (hw : key &&& 0x7 = 2)
    (h2 : read_varint (bytes.drop len) = .ok (v2, len2)) (hv : USIZE_MAX < v2) :
    parse_field bytes = .error .parseError := by
  simp only [parse_field, hk, hw, h2]
  rw [if_pos hv]

theorem parse_field_second_empty {bytes : List Nat} {key len : Nat}
    (hk : read_varint bytes = .ok (key, len)) (hw : key &&& 0x7 = 0 ∨ key &&& 0x7 = 2)
    (hdrop : bytes.drop len = []) :
    parse_field bytes = .error .parseError := by
  have h2 : read_varint (bytes.drop len) = .error .parseError := by
    rw [hdrop]; rfl
  rcases hw with hw | hw <;> simp only [parse_field, hk, hw, h2]

theorem parse_field_badwire {bytes : List Nat} {key len : Nat}
    (hk : read_varint bytes = .ok (key, len))
    (hw : key &&& 0x7 = 3 ∨ key &&& 0x7 = 4 ∨ key &&& 0x7 = 6 ∨ key &&& 0x7 = 7) :
    parse_field bytes = .error .parseError := by
  rcases hw with hw | hw | hw | hw <;> simp only [parse_field, hk, hw]

/-- The wire type `key & 0x7` is at most `7`. -/
theorem wire_type_le (key : Nat) : key &&& 0x7 ≤ 7 :=
  Nat.and_le_right

/-- Inversion for a successful `parse_field`. -/
theorem parse_field_ok_inv {bytes : List Nat} {id total : Nat}
    (h : parse_field bytes = .ok (id, total)) :
    ∃ key len, read_varint bytes = .ok (key, len) ∧ id = key >>> 3 ∧
      ((key &&& 0x7 = 0 ∧ ∃ v2 len2, read_varint (bytes.drop len) = .ok (v2, len2) ∧
          total = len + len2)
       ∨ (key &&& 0x7 = 1 ∧ total = len + 8)
       ∨ (key &&& 0x7 = 2 ∧ ∃ v2 len2, read_varint (bytes.drop len) = .ok (v2, len2) ∧
          ¬ USIZE_MAX < v2 ∧ total = len + (v2 + len2))
       ∨ (key &&& 0x7 = 5 ∧ total = len + 4)) := by
  unfold parse_field at h
  cases hk : read_varint bytes with
  | error e => rw [hk] at h; cases h
  | ok p =>
    obtain ⟨key, len⟩ := p
    rw [hk] at h
    refine ⟨key, len, rfl, ?_⟩
    simp only at h
    split at h
    · rename_i hw
      cases h2 : read_varint (bytes.drop len) with
      | error e =>
        rw [h2] at h
        simp only [] at h
        cases h
      | ok p2 =>
        obtain ⟨v2, len2⟩ := p2
        rw [h2] at h
        simp only [Except.ok.injEq, Prod.mk.injEq] at h
        exact ⟨h.1.symm, Or.inl ⟨hw, v2, len2, rfl, h.2.symm⟩⟩
    · rename_i hw
      simp only [Except.ok.injEq, Prod.mk.injEq] at h
      exact ⟨h.1.symm, Or.inr (Or.inl ⟨hw, h.2.symm⟩)⟩
    · rename_i hw
      cases h2 : read_varint (bytes.drop len) with
      | error e =>
        rw [h2] at h
        simp only [] at h
        cases h
      | ok p2 =>
        obtain ⟨v2, len2⟩ := p2
        rw [h2] at h
        simp only [] at h
        by_cases hv : USIZE_MAX < v2
        · rw [if_pos hv] at h; cases h
        · rw [if_neg hv] at h
          simp only [Except.ok.injEq, Prod.mk.injEq] at h
          exact ⟨h.1.symm, Or.inr (Or.inr (Or.inl ⟨hw, v2, len2, rfl, hv, h.2.symm⟩))⟩
    · rename_i hw; cases h
    · rename_i hw; cases h
    · rename_i hw
      simp only [Except.ok.injEq, Prod.mk.injEq] at h
      exact ⟨h.1.symm, Or.inr (Or.inr (Or.inr ⟨hw, h.2.symm⟩))⟩
    · cases h

/-- Inversion for a failing `parse_field`: the error is always the library's
`ParseError`, and it arises exactly from the listed conditions. -/
theorem parse_field_error_inv {bytes : List Nat} {e : Err}
    (h : parse_field bytes = .error e) :
    e = .parseError ∧
      (bytes = [] ∨
       ∃ key len, read_varint bytes = .ok (key, len) ∧
         (((key &&& 0x7 = 0 ∨ key &&& 0x7 = 2) ∧ bytes.drop len = [])
          ∨ (key &&& 0x7 = 2 ∧ ∃ v2 len2, read_varint (bytes.drop len) = .ok (v2, len2) ∧
             USIZE_MAX < v2)
          ∨ key &&& 0x7 = 3 ∨ key &&& 0x7 = 4
          ∨ ¬ (key &&& 0x7 = 0 ∨ key &&& 0x7 = 1 ∨ key &&& 0x7 = 2 ∨ key &&& 0x7 = 5))) := by
  by_cases hb : bytes = []
  · subst hb
    have hpe : parse_field ([] : List Nat) = .error .parseError := rfl
    rw [hpe] at h
    cases h
    exact ⟨rfl, Or.inl rfl⟩
  · unfold parse_field at h
    have hk : read_varint bytes = .ok (varintFold (consumed bytes), (consumed bytes).length) :=
      read_varint_ok bytes hb
    rw [hk] at h
    set key := varintFold (consumed bytes) with hkey
    set len := (consumed bytes).length with hlen
    simp only at h
    refine ⟨?_, Or.inr ⟨key, len, hk, ?_⟩⟩
    · split at h
      · cases h2 : read_varint (bytes.drop len) with
        | error e2 =>
          rw [h2] at h
          simp only [] at h
          obtain ⟨-, he2⟩ := read_varint_error_inv h2
          cases h
          exact he2
        | ok p2 =>
          obtain ⟨v2, len2⟩ := p2
          rw [h2] at h
          simp only [] at h
          cases h
      · cases h
      · cases h2 : read_varint (bytes.drop len) with
        | error e2 =>
          rw [h2] at h
          simp only [] at h
          obtain ⟨-, he2⟩ := read_varint_error_inv h2
          cases h
          exact he2
        | ok p2 =>
          obtain ⟨v2, len2⟩ := p2
          rw [h2] at h
          simp only [] at h
          by_cases hv : USIZE_MAX < v2
          · rw [if_pos hv] at h; cases h; rfl
          · rw [if_neg hv] at h; cases h
      · cases h; rfl
      · cases h; rfl
      · cases h
      · cases h; rfl
    · split at h
      · rename_i hw
        cases h2 : read_varint (bytes.drop len) with
        | error e2 =>
          obtain ⟨hdrop, -⟩ := read_varint_error_inv h2
          exact Or.inl ⟨Or.inl hw, hdrop⟩
        | ok p2 =>
          obtain ⟨v2, len2⟩ := p2
          rw [h2] at h
          simp only [] at h
          cases h
      · cases h
      · rename_i hw
        cases h2 : read_varint (bytes.drop len) with
        | error e2 =>
          obtain ⟨hdrop, -⟩ := read_varint_error_inv h2
          exact Or.inl ⟨Or.inr hw, hdrop⟩
        | ok p2 =>
          obtain ⟨v2, len2⟩ := p2
          rw [h2] at h
          simp only [] at h
          by_cases hv : USIZE_MAX < v2
          · exact Or.inr (Or.inl ⟨hw, v2, len2, rfl, hv⟩)
          · rw [if_neg hv] at h; cases h
      · rename_i hw
        exact Or.inr (Or.inr (Or.inl hw))
      · rename_i hw
        exact Or.inr (Or.inr (Or.inr (Or.inl hw)))
      · cases h
      · rename_i hw0 hw1 hw2 hw3 hw4 hw5
        refine Or.inr (Or.inr (Or.inr (Or.inr ?_)))
        rintro (hw | hw | hw | hw)
        · exact hw0 hw
        · exact hw1 hw
        · exact hw2 hw
        · exact hw5 hw


/-! ### The scan-loop invariant: a successful parse partitions the buffer -/

/-- The chunk sequence telescopes from a given offset: the first chunk starts
exactly at that offset and each subsequent chunk starts where the previous
one ended. -/
def telescopes : Nat → List Chunk → Prop
  | _, [] => True
  | off, c :: rest => c.offset = off ∧ telescopes (off + c.length) rest

theorem parse_loop_sound (msg : List Nat) :
    ∀ fuel off cs, msg.length - off ≤ fuel → off ≤ msg.length →
      parse_loop (msg.drop off) off = .ok cs →
      telescopes off cs ∧
      off + (cs.map Chunk.length).sum = msg.length ∧
      ∀ c ∈ cs, parse_field (msg.drop c.offset) = .ok (c.id, c.length) ∧
        1 ≤ c.length ∧ c.offset + c.length ≤ msg.length := by
  intro fuel
  induction fuel with
  | zero =>
    intro off cs hfuel hoff hp
    have hdrop : msg.drop off = [] := by
      apply List.eq_nil_of_length_eq_zero
      simp only [List.length_drop]
      omega
    rw [hdrop, parse_loop_nil] at hp
    cases hp
    exact ⟨trivial, by simp; omega, by simp⟩
  | succ n ih =>
    intro off cs hfuel hoff hp
    cases hb : msg.drop off with
    | nil =>
      rw [hb, parse_loop_nil] at hp
      cases hp
      have hlen : msg.length - off = 0 := by
        have := congrArg List.length hb
        simpa [List.length_drop] using this
      exact ⟨trivial, by simp; omega, by simp⟩
    | cons b bs =>
      have hlen : msg.length - off = bs.length + 1 := by
        have := congrArg List.length hb
        simpa [List.length_drop] using this
      rw [hb] at hp
      cases hf : parse_field (b :: bs) with
      | error e => rw [parse_loop_cons_err off hf] at hp; cases hp
      | ok p =>
        obtain ⟨fid, total⟩ := p
        have htotpos : 1 ≤ total := parse_field_total_pos hf
        by_cases hle : total ≤ bs.length + 1
        · rw [parse_loop_cons_ok off hf hle] at hp
          have hdd : (b :: bs).drop total = msg.drop (off + total) := by
            rw [← hb, List.drop_drop, Nat.add_comm]
          cases hrec : parse_loop (msg.drop (off + total)) (off + total) with
          | error e =>
            rw [hdd, hrec] at hp
            cases hp
          | ok rest =>
            rw [hdd, hrec] at hp
            simp only [] at hp
            cases hp
            obtain ⟨htel, hsum, hmem⟩ :=
              ih (off + total) rest (by omega) (by omega) hrec
            refine ⟨⟨rfl, htel⟩, ?_, ?_⟩
            · simp only [List.map_cons, List.sum_cons]
              omega
            · intro c hc
              rcases List.mem_cons.mp hc with hc | hc
              · subst hc
                refine ⟨?_, htotpos, by show off + total ≤ msg.length; omega⟩
                rw [hb]
                exact hf
              · exact hmem c hc
        · rw [parse_loop_cons_panic off hf (by omega)] at hp
          cases hp

/-- Soundness of `parse_message`: on success the chunks telescope from
offset `0`, their lengths sum to the buffer length, and each chunk is the
field decoded at its own offset, nonempty and in bounds. -/
theorem parse_message_sound {msg : List Nat} {cs : List Chunk}
    (h : parse_message msg = .ok cs) :
    telescopes 0 cs ∧ (cs.map Chunk.length).sum = msg.length ∧
    ∀ c ∈ cs, parse_field (msg.drop c.offset) = .ok (c.id, c.length) ∧
      1 ≤ c.length ∧ c.offset + c.length ≤ msg.length := by
  have h0 : parse_loop (msg.drop 0) 0 = .ok cs := by
    rw [List.drop_zero]
    exact h
  obtain ⟨htel, hsum, hmem⟩ :=
    parse_loop_sound msg msg.length 0 cs (by omega) (by omega) h0
  exact ⟨htel, by omega, hmem⟩

/-! ### Reassembly lemmas -/

theorem chunkSlice_length {msg : List Nat} {c : Chunk}
    (h : c.offset + c.length ≤ msg.length) :
    (chunkSlice msg c).length = c.length := by
  simp only [chunkSlice, List.length_take, List.length_drop]
  omega

theorem concat_chunks_ok (msg : List Nat) :
    ∀ cs : List Chunk, (∀ c ∈ cs, c.offset + c.length ≤ msg.length) →
      concat_chunks cs msg = .ok ((cs.map (chunkSlice msg)).flatten) := by
  intro cs
  induction cs with
  | nil => intro _; rfl
  | cons c rest ih =>
    intro hb
    have hc : c.offset + c.length ≤ msg.length := hb c (by simp)
    unfold concat_chunks
    rw [if_pos hc, ih (fun c' hc' => hb c' (List.mem_cons_of_mem _ hc'))]
    simp

theorem flatten_slices_length (msg : List Nat) (cs : List Chunk)
    (hb : ∀ c ∈ cs, c.offset + c.length ≤ msg.length) :
    ((cs.map (chunkSlice msg)).flatten).length = (cs.map Chunk.length).sum := by
  rw [List.length_flatten, List.map_map]
  congr 1
  apply List.map_congr_left
  intro c hc
  exact chunkSlice_length (hb c hc)

theorem flatten_slices_eq (msg : List Nat) :
    ∀ (cs : List Chunk) (off : Nat), telescopes off cs →
      off + (cs.map Chunk.length).sum = msg.length →
      (cs.map (chunkSlice msg)).flatten = msg.drop off := by
  intro cs
  induction cs with
  | nil =>
    intro off _ hsum
    simp only [List.map_nil, List.flatten_nil]
    symm
    apply List.eq_nil_of_length_eq_zero
    simp only [List.length_drop]
    simp at hsum
    omega
  | cons c rest ih =>
    intro off htel hsum
    obtain ⟨hoff, htel'⟩ := htel
    simp only [List.map_cons, List.sum_cons] at hsum
    have hrest := ih (off + c.length) htel' (by omega)
    simp only [List.map_cons, List.flatten_cons]
    rw [hrest]
    have hdd : msg.drop (off + c.length) = (msg.drop off).drop c.length := by
      rw [List.drop_drop, Nat.add_comm]
    rw [hdd]
    unfold chunkSlice
    rw [hoff]
    exact List.take_append_drop _ _

/-! ### The order check and the stable sort -/

theorem is_sorted_go_iff (cs : List Chunk) :
    ∀ p : Nat, is_sorted_go p cs = true ↔
      (List.Chain' chunkLE cs ∧ ∀ b ∈ cs.head?, p ≤ b.id) := by
  induction cs with
  | nil => intro p; simp [is_sorted_go]
  | cons c rest ih =>
    intro p
    rw [is_sorted_go]
    by_cases hlt : c.id < p
    · rw [if_pos hlt]
      simp only [List.head?_cons, Option.mem_def, Option.some.injEq]
      constructor
      · intro h; cases h
      · rintro ⟨-, hhead⟩
        have := hhead c rfl
        omega
    · rw [if_neg hlt]
      rw [ih c.id, List.chain'_cons']
      simp only [List.head?_cons, Option.mem_def, Option.some.injEq]
      constructor
      · rintro ⟨hchain, hhead⟩
        refine ⟨⟨?_, hchain⟩, ?_⟩
        · intro b hb
          exact hhead b hb
        · intro b hb
          cases hb
          omega
      · rintro ⟨⟨hhead, hchain⟩, -⟩
        exact ⟨hchain, hhead⟩

/-- The source's `is_sorted` tests exactly that the ids are non-decreasing. -/
theorem is_sorted_iff_chain (cs : List Chunk) :
    is_sorted cs = true ↔ List.Chain' chunkLE cs := by
  cases cs with
  | nil => simp [is_sorted]
  | cons c rest =>
    rw [is_sorted, is_sorted_go_iff rest c.id, List.chain'_cons']
    constructor
    · rintro ⟨hchain, hhead⟩
      exact ⟨hhead, hchain⟩
    · rintro ⟨hhead, hchain⟩
      exact ⟨hchain, hhead⟩

theorem sort_chunks_perm (cs : List Chunk) : List.Perm (sort_chunks cs) cs :=
  List.perm_insertionSort chunkLE cs

theorem sort_chunks_sorted (cs : List Chunk) : List.Sorted chunkLE (sort_chunks cs) :=
  List.sorted_insertionSort chunkLE cs

theorem sort_chunks_of_sorted {cs : List Chunk} (h : List.Chain' chunkLE cs) :
    sort_chunks cs = cs :=
  List.Sorted.insertionSort_eq (List.chain'_iff_pairwise.mp h)

/-- `do_sort` succeeds whenever the chunks come from a successful parse, and
yields the concatenation of the sorted chunks' byte ranges, of the same
length as the buffer. -/
theorem do_sort_ok_of_parse {msg : List Nat} {chunks : List Chunk}
    (hp : parse_message msg = .ok chunks) :
    do_sort chunks msg = .ok (((sort_chunks chunks).map (chunkSlice msg)).flatten) ∧
    (((sort_chunks chunks).map (chunkSlice msg)).flatten).length = msg.length := by
  obtain ⟨htel, hsum, hmem⟩ := parse_message_sound hp
  have hbounds : ∀ c ∈ sort_chunks chunks, c.offset + c.length ≤ msg.length := by
    intro c hc
    exact (hmem c ((sort_chunks_perm chunks).mem_iff.mp hc)).2.2
  refine ⟨concat_chunks_ok msg _ hbounds, ?_⟩
  rw [flatten_slices_length msg _ hbounds]
  have hps : List.Perm ((sort_chunks chunks).map Chunk.length) (chunks.map Chunk.length) :=
    (sort_chunks_perm chunks).map Chunk.length
  rw [hps.sum_eq]
  exact hsum

/-! ### Concrete evaluations used by witnesses and counterexamples -/

/-- `[0x08, 0x54]` (field 1, wire type 0, one-byte varint payload) parses to
a single two-byte chunk. -/
theorem parse_ex_sorted : parse_message [8, 84] = .ok [⟨1, 0, 2⟩] := by
  rw [parse_message,
    parse_loop_cons_ok 0 (show parse_field [8, 84] = .ok (1, 2) from rfl) (by norm_num)]
  have hd : List.drop 2 [8, 84] = ([] : List Nat) := rfl
  rw [hd, parse_loop_nil]

/-- `[0x10, 0x00, 0x08, 0x00]`: field 2 then field 1, both wire type 0. -/
theorem parse_ex_unsorted : parse_message [16, 0, 8, 0] = .ok [⟨2, 0, 2⟩, ⟨1, 2, 2⟩] := by
  rw [parse_message,
    parse_loop_cons_ok 0 (show parse_field [16, 0, 8, 0] = .ok (2, 2) from rfl) (by norm_num)]
  have hd : List.drop 2 [16, 0, 8, 0] = ([8, 0] : List Nat) := rfl
  rw [hd, parse_loop_cons_ok 2 (show parse_field [8, 0] = .ok (1, 2) from rfl) (by norm_num)]
  have hd2 : List.drop 2 [8, 0] = ([] : List Nat) := rfl
  rw [hd2, parse_loop_nil]

/-- `[0x10, 0x00, 0x08, 0x80]`: field 2 (wire 0), then field 1 whose varint
payload `0x80` is truncated at the buffer end (continuation bit set). -/
theorem parse_ex_truncated : parse_message [16, 0, 8, 128] = .ok [⟨2, 0, 2⟩, ⟨1, 2, 2⟩] := by
  rw [parse_message,
    parse_loop_cons_ok 0 (show parse_field [16, 0, 8, 128] = .ok (2, 2) from rfl) (by norm_num)]
  have hd : List.drop 2 [16, 0, 8, 128] = ([8, 128] : List Nat) := rfl
  rw [hd, parse_loop_cons_ok 2 (show parse_field [8, 128] = .ok (1, 2) from rfl) (by norm_num)]
  have hd2 : List.drop 2 [8, 128] = ([] : List Nat) := rfl
  rw [hd2, parse_loop_nil]

/-- Re-parsing the reassembled bytes `[0x08, 0x80, 0x10, 0x00]` fails: the
truncated varint of the first chunk now absorbs the next chunk's key byte,
and the scan then hits a lone `0x00` key with an empty remaining slice. -/
theorem parse_ex_reassembled : parse_message [8, 128, 16, 0] = .error .parseError := by
  rw [parse_message,
    parse_loop_cons_ok 0 (show parse_field [8, 128, 16, 0] = .ok (1, 3) from rfl) (by norm_num)]
  have hd : List.drop 3 [8, 128, 16, 0] = ([0] : List Nat) := rfl
  rw [hd, parse_loop_cons_err 3 (show parse_field [0] = .error .parseError from rfl)]

/-- `[0x0A, 0x01]`: field 1, wire type 2, declared payload length 1 with no
payload bytes remaining; the scan overruns the buffer. -/
theorem parse_ex_overrun : parse_message [10, 1] = .error .panic := by
  rw [parse_message,
    parse_loop_cons_panic 0 (show parse_field [10, 1] = .ok (1, 3) from rfl) (by norm_num)]

/-! ### Claims C1, C3, C4, C5, C9, C10 -/

/-- C1 (evidence of the code bug): on the malformed input `[0x0A, 0x01]` — a
length-delimited field whose declared size (1) exceeds the remaining buffer
(0 bytes) — every public operation panics (the slice re-indexing
`&msg[offset..]` in `parse_message` goes out of bounds) instead of returning
the reported parse failure that the specification requires. -/
theorem public_ops_panic_on_overrun :
    is_protobuf_message_sorted [10, 1] = .error .panic ∧
    sort_protobuf_message [10, 1] = .error .panic ∧
    sort_protobuf_message_inplace [10, 1] = .error .panic := by
  refine ⟨?_, ?_, ?_⟩ <;>
    simp [is_protobuf_message_sorted, sort_protobuf_message,
      sort_protobuf_message_inplace, parse_ex_overrun]

/-- C3: for every buffer on which `parse_message` succeeds, the produced
chunk sequence exactly partitions the buffer: the chunks telescope from
offset `0` (the first chunk starts at offset 0 and each subsequent chunk's
offset equals the previous chunk's offset plus its length) and the chunk
lengths sum to the buffer length — no gaps, no overlaps. -/
theorem parse_partitions_buffer {msg : List Nat} {chunks : List Chunk}
    (h : parse_message msg = .ok chunks) :
    telescopes 0 chunks ∧ (chunks.map Chunk.length).sum = msg.length :=
  ⟨(parse_message_sound h).1, (parse_message_sound h).2.1⟩

theorem parse_partitions_buffer_witness :
    telescopes 0 [⟨1, 0, 2⟩] ∧
    (([⟨1, 0, 2⟩] : List Chunk).map Chunk.length).sum = ([8, 84] : List Nat).length :=
  parse_partitions_buffer parse_ex_sorted

/-- C5: idempotence on sorted input: if a message parses successfully and its
chunk ids are already non-decreasing, `sort_protobuf_message` returns the
borrowed (zero-copy) input buffer and `sort_protobuf_message_inplace` leaves
the buffer byte-for-byte unchanged. -/
theorem sorted_input_identity {msg : List Nat} {chunks : List Chunk}
    (hp : parse_message msg = .ok chunks)
    (hs : List.Chain' chunkLE chunks) :
    sort_protobuf_message msg = .ok (.borrowed msg) ∧
    sort_protobuf_message_inplace msg = .ok msg := by
  have hb : is_sorted chunks = true := (is_sorted_iff_chain chunks).mpr hs
  constructor
  · simp [sort_protobuf_message, hp, hb]
  · simp [sort_protobuf_message_inplace, hp, hb]

theorem sorted_input_identity_witness :
    sort_protobuf_message [8, 84] = .ok (.borrowed [8, 84]) ∧
    sort_protobuf_message_inplace [8, 84] = .ok [8, 84] :=
  sorted_input_identity parse_ex_sorted (by simp)

/-- C9: the two sort operations are equivalent: on every input they fail
alike, and on success the buffer left by the in-place sort is byte-for-byte
the buffer (borrowed or owned) returned by the copying sort. -/
theorem sort_copy_inplace_equiv (msg : List Nat) :
    (sort_protobuf_message msg).map Cow.bytes = sort_protobuf_message_inplace msg := by
  unfold sort_protobuf_message sort_protobuf_message_inplace
  cases hp : parse_message msg with
  | error e => simp [Except.map]
  | ok chunks =>
    by_cases hs : is_sorted chunks = true
    · simp [hs, Except.map, Cow.bytes]
    · obtain ⟨hds, hlen⟩ := do_sort_ok_of_parse hp
      simp [hs, hds, hlen, Except.map, Cow.bytes]

/-- C10: the progress facts that make the scan terminate: a successful
varint read on any slice consumes at least one byte and at most the slice
length, and a successfully decoded field has total length at least 1, so the
remaining suffix strictly shrinks on every iteration of the scan loop.  (In
this embedding `parse_loop` is accepted by well-founded recursion on exactly
this measure.) -/
theorem scan_progress :
    (∀ (bytes : List Nat) (v n : Nat), read_varint bytes = .ok (v, n) →
      1 ≤ n ∧ n ≤ bytes.length) ∧
    (∀ (bytes : List Nat) (id total : Nat), parse_field bytes = .ok (id, total) →
      1 ≤ total ∧ (bytes.drop total).length < bytes.length) := by
  refine ⟨fun bytes v n h => read_varint_bounds h, fun bytes id total h => ?_⟩
  have h1 := parse_field_total_pos h
  obtain ⟨key, len, hk, -⟩ := parse_field_ok_inv h
  have h2 := (read_varint_bounds hk).2
  have h3 := (read_varint_bounds hk).1
  simp only [List.length_drop]
  omega

theorem scan_progress_witness :
    1 ≤ 2 ∧ 2 ≤ ([128, 1] : List Nat).length :=
  scan_progress.1 [128, 1] 1 2 rfl

theorem filter_orderedInsert (k : Nat) (a : Chunk) :
    ∀ l : List Chunk,
      (List.orderedInsert chunkLE a l).filter (fun c => c.id == k) =
        if a.id = k then a :: l.filter (fun c => c.id == k)
        else l.filter (fun c => c.id == k) := by
  intro l
  induction l with
  | nil =>
    by_cases hk : a.id = k
    · simp [List.orderedInsert, List.filter, hk]
    · have hb : (a.id == k) = false := by simp [hk]
      simp [List.orderedInsert, List.filter, hb, hk]
  | cons b l ih =>
    rw [List.orderedInsert]
    by_cases hab : chunkLE a b
    · rw [if_pos hab]
      by_cases hk : a.id = k <;> simp [List.filter_cons, hk]
    · rw [if_neg hab]
      have hba : b.id < a.id := by
        unfold chunkLE at hab
        omega
      by_cases hbk : b.id = k
      · have hak : ¬ a.id = k := by omega
        simp [List.filter_cons, hbk, hak, ih]
      · by_cases hk : a.id = k <;> simp [List.filter_cons, hbk, hk, ih]

/-- C4: the sort used by Sort & Reassemble is stable: for every chunk
sequence and every field id, the chunks carrying that id appear in the
sorted output exactly in their original relative order (their filtered
subsequence is unchanged). -/
theorem sort_chunks_stable (l : List Chunk) (k : Nat) :
    (sort_chunks l).filter (fun c => c.id == k) = l.filter (fun c => c.id == k) := by
  induction l with
  | nil => rfl
  | cons a l ih =>
    have hstep : sort_chunks (a :: l) = List.orderedInsert chunkLE a (sort_chunks l) := rfl
    rw [hstep, filter_orderedInsert]
    by_cases hk : a.id = k <;> simp [List.filter_cons, hk, ih]

/-! ### Claims C7 and C8: the varint decoder -/

/-- The consumed prefix is either the whole slice (no terminator byte) or
everything up to and including the first byte with clear high bit. -/
theorem consumed_split (l : List Nat) :
    (consumed l = l ∧ ∀ b ∈ l, ¬ b &&& 0x80 = 0) ∨
    (∃ p b t, l = p ++ b :: t ∧ (∀ x ∈ p, ¬ x &&& 0x80 = 0) ∧ b &&& 0x80 = 0 ∧
      consumed l = p ++ [b]) := by
  induction l with
  | nil => exact Or.inl ⟨rfl, by simp⟩
  | cons b rest ih =>
    by_cases hb : b &&& 0x80 = 0
    · refine Or.inr ⟨[], b, rest, rfl, by simp, hb, ?_⟩
      simp [consumed, hb]
    · rcases ih with ⟨hc, hall⟩ | ⟨p, b', t, hsplit, hp, hb', hc⟩
      · refine Or.inl ⟨?_, ?_⟩
        · simp [consumed, hb, hc]
        · intro x hx
          rcases List.mem_cons.mp hx with rfl | hx
          · exact hb
          · exact hall x hx
      · refine Or.inr ⟨b :: p, b', t, by simp [hsplit], ?_, hb', ?_⟩
        · intro x hx
          rcases List.mem_cons.mp hx with rfl | hx
          · exact hb
          · exact hp x hx
        · simp [consumed, hb, hc]

/-- C7: on every non-empty slice `read_varint` succeeds and returns the
MSB-first left fold `value = (value << 7) | (byte & 0x7F)` (on `u128`) of
the consumed bytes, together with their exact count; the consumed bytes are
the prefix up to and including the first byte whose high bit (`0x80`) is
clear — every earlier byte has the bit set — or the whole slice when no byte
clears it. -/
theorem read_varint_spec (l : List Nat) (h : l ≠ []) :
    read_varint l = .ok (varintFold (consumed l), (consumed l).length) ∧
    ((consumed l = l ∧ ∀ b ∈ l, ¬ b &&& 0x80 = 0) ∨
     (∃ p b t, l = p ++ b :: t ∧ (∀ x ∈ p, ¬ x &&& 0x80 = 0) ∧ b &&& 0x80 = 0 ∧
       consumed l = p ++ [b])) :=
  ⟨read_varint_ok l h, consumed_split l⟩

theorem read_varint_spec_witness :
    read_varint [128, 1] = .ok (varintFold (consumed [128, 1]), (consumed [128, 1]).length) ∧
    ((consumed [128, 1] = [128, 1] ∧ ∀ b ∈ ([128, 1] : List Nat), ¬ b &&& 0x80 = 0) ∨
     (∃ p b t, ([128, 1] : List Nat) = p ++ b :: t ∧ (∀ x ∈ p, ¬ x &&& 0x80 = 0) ∧
       b &&& 0x80 = 0 ∧ consumed [128, 1] = p ++ [b])) :=
  read_varint_spec [128, 1] (by decide)

/-- If every byte has the continuation bit set, the whole slice is consumed. -/
theorem consumed_eq_self {l : List Nat} (h : ∀ b ∈ l, ¬ b &&& 0x80 = 0) :
    consumed l = l := by
  induction l with
  | nil => rfl
  | cons b rest ih =>
    have hb : ¬ b &&& 0x80 = 0 := h b (by simp)
    simp only [consumed]
    rw [if_neg (by simpa using hb)]
    rw [ih (fun x hx => h x (List.mem_cons_of_mem _ hx))]

/-- C8: truncated-varint acceptance: on a non-empty slice in which every
byte has the continuation bit (`0x80`) set, `read_varint` does not fail; it
consumes the entire slice, returning the accumulated fold and a count equal
to the slice length. -/
theorem read_varint_truncated (l : List Nat) (h1 : l ≠ [])
    (h2 : ∀ b ∈ l, ¬ b &&& 0x80 = 0) :
    read_varint l = .ok (varintFold l, l.length) := by
  rw [read_varint_ok l h1, consumed_eq_self h2]

theorem read_varint_truncated_witness :
    read_varint [128] = .ok (varintFold [128], ([128] : List Nat).length) :=
  read_varint_truncated [128] (by decide) (by decide)

/-! ### Locality of the field decoder

When every varint of a field stops at a byte with clear high bit (it is not
truncated by the end of the buffer), decoding that field depends only on the
field's own bytes, so the chunk re-parses identically at any position.  This
is the side condition of the amended claim C2. -/

/-- Whether the slice contains a byte with clear high bit, i.e. the varint
read at its front stops at a terminator byte rather than by exhausting the
input. -/
def varint_terminated (l : List Nat) : Bool := l.any (fun b => b &&& 0x80 == 0)

/-- On a terminated slice, the consumed prefix is determined by any list
agreeing on that prefix. -/
theorem consumed_congr : ∀ l l' : List Nat, varint_terminated l = true →
    l'.take (consumed l).length = l.take (consumed l).length →
    consumed l' = consumed l := by
  intro l
  induction l with
  | nil => intro l' ht _; simp [varint_terminated] at ht
  | cons b rest ih =>
    intro l' ht htake
    by_cases hb : b &&& 0x80 = 0
    · have hc : consumed (b :: rest) = [b] := by simp [consumed, hb]
      rw [hc] at htake ⊢
      cases l' with
      | nil => simp at htake
      | cons b'' rest' =>
        have hlen1 : ([b] : List Nat).length = 1 := rfl
        rw [hlen1] at htake
        simp only [List.take_succ_cons, List.take_zero] at htake
        cases htake
        simp [consumed, hb]
    · have hc : consumed (b :: rest) = b :: consumed rest := by
        simp only [consumed]
        rw [if_neg (by simpa using hb)]
      have htr : varint_terminated rest = true := by
        simp only [varint_terminated, List.any_cons] at ht
        rcases Bool.or_eq_true_iff.mp ht with h1 | h1
        · exfalso; exact hb (by simpa using h1)
        · exact h1
      rw [hc] at htake ⊢
      cases l' with
      | nil => simp at htake
      | cons b'' rest' =>
        simp only [List.length_cons, List.take_succ_cons] at htake
        injection htake with hbb htake'
        subst hbb
        have := ih rest' htr htake'
        simp only [consumed]
        rw [if_neg (by simpa using hb), this]

/-- On a terminated slice, `read_varint` gives the same result on any slice
agreeing on the consumed prefix. -/
theorem read_varint_congr {l l' : List Nat} (ht : varint_terminated l = true)
    (hne : l ≠ [])
    (htake : l'.take (consumed l).length = l.take (consumed l).length) :
    read_varint l' = read_varint l := by
  have h1 := consumed_length_pos l hne
  have hne' : l' ≠ [] := by
    intro h0
    subst h0
    have h2 : 1 ≤ l.length := by
      cases l
      · exact absurd rfl hne
      · simp
    have := congrArg List.length htake
    simp only [List.length_take, List.take_nil, List.length_nil] at this
    omega
  rw [read_varint_ok l hne, read_varint_ok l' hne', consumed_congr l l' ht htake]

/-- The side condition of the amended claim C2, computed from the same reads
the parser performs on the remaining slice of one field: the key varint
stops at a byte with clear high bit, and so does the second varint for wire
types 0 and 2 (no varint of this field is truncated at the buffer end). -/
def chunk_wf (bytes : List Nat) : Bool :=
  varint_terminated bytes &&
    (match read_varint bytes with
     | .error _ => true
     | .ok (key, len) =>
       match key &&& 0x7 with
       | 0 => varint_terminated (bytes.drop len)
       | 2 => varint_terminated (bytes.drop len)
       | _ => true)

theorem chunk_wf_key {bytes : List Nat} (h : chunk_wf bytes = true) :
    varint_terminated bytes = true :=
  (Bool.and_eq_true_iff.mp h).1

theorem chunk_wf_second {bytes : List Nat} {key len : Nat}
    (h : chunk_wf bytes = true) (hk : read_varint bytes = .ok (key, len))
    (hw : key &&& 0x7 = 0 ∨ key &&& 0x7 = 2) :
    varint_terminated (bytes.drop len) = true := by
  have h2 := (Bool.and_eq_true_iff.mp h).2
  rw [hk] at h2
  rcases hw with hw | hw <;> simpa [hw] using h2

/-- Locality: a successfully decoded, well-formed field decodes identically
from its own byte range followed by arbitrary bytes. -/
theorem parse_field_local {bytes : List Nat} {id total : Nat}
    (hf : parse_field bytes = .ok (id, total)) (hwf : chunk_wf bytes = true)
    (hle : total ≤ bytes.length) (rest : List Nat) :
    parse_field (bytes.take total ++ rest) = .ok (id, total) := by
  obtain ⟨key, len, hk, hid, hcase⟩ := parse_field_ok_inv hf
  subst hid
  have hlen_eq : len = (consumed bytes).length := (read_varint_inv hk).2.2
  have hlen_le : len ≤ total := by
    rcases hcase with ⟨-, v2, len2, -, h⟩ | ⟨-, h⟩ | ⟨-, v2, len2, -, -, h⟩ | ⟨-, h⟩ <;> omega
  have hne : bytes ≠ [] := (read_varint_inv hk).1
  have ht1 : varint_terminated bytes = true := chunk_wf_key hwf
  -- the key varint reads the same from the relocated bytes
  have htake1 : (bytes.take total ++ rest).take (consumed bytes).length =
      bytes.take (consumed bytes).length := by
    rw [List.take_append_of_le_length, List.take_take, Nat.min_eq_left]
    · omega
    · simp only [List.length_take]
      omega
  have hk' : read_varint (bytes.take total ++ rest) = .ok (key, len) := by
    rw [read_varint_congr ht1 hne (by rw [htake1])]
    exact hk
  -- the second varint (wire types 0 and 2) reads the same as well
  have hsecond : ∀ len2 v2, read_varint (bytes.drop len) = .ok (v2, len2) →
      len + len2 ≤ total → (key &&& 0x7 = 0 ∨ key &&& 0x7 = 2) →
      read_varint ((bytes.take total ++ rest).drop len) = .ok (v2, len2) := by
    intro len2 v2 h2 hlt hw
    have hne2 : bytes.drop len ≠ [] := (read_varint_inv h2).1
    have ht2 : varint_terminated (bytes.drop len) = true := chunk_wf_second hwf hk hw
    have hlen2_eq : len2 = (consumed (bytes.drop len)).length := (read_varint_inv h2).2.2
    have hsplit : (bytes.take total ++ rest).drop len =
        (bytes.drop len).take (total - len) ++ rest := by
      rw [List.drop_append_of_le_length, List.drop_take]
      simp only [List.length_take]
      omega
    have htake2 : ((bytes.drop len).take (total - len) ++ rest).take
        (consumed (bytes.drop len)).length =
        (bytes.drop len).take (consumed (bytes.drop len)).length := by
      rw [List.take_append_of_le_length, List.take_take, Nat.min_eq_left]
      · omega
      · simp only [List.length_take, List.length_drop]
        have := consumed_length_le (bytes.drop len)
        simp only [List.length_drop] at this
        omega
    rw [hsplit, read_varint_congr ht2 hne2 (by rw [htake2])]
    exact h2
  rcases hcase with ⟨hw, v2, len2, h2, htot⟩ | ⟨hw, htot⟩ | ⟨hw, v2, len2, h2, hv, htot⟩ |
    ⟨hw, htot⟩
  · subst htot
    exact parse_field_wire0 hk' hw (hsecond len2 v2 h2 (by omega) (Or.inl hw))
  · subst htot
    exact parse_field_wire1 hk' hw
  · subst htot
    exact parse_field_wire2 hk' hw (hsecond len2 v2 h2 (by omega) (Or.inr hw)) hv
  · subst htot
    exact parse_field_wire5 hk' hw

/-! ### Re-parsing the reassembled buffer -/

/-- Reassign telescoping offsets starting at `off` to a chunk sequence: the
offsets the chunks occupy after their byte ranges are concatenated. -/
def relabel (off : Nat) : List Chunk → List Chunk
  | [] => []
  | c :: rest => ⟨c.id, off, c.length⟩ :: relabel (off + c.length) rest

theorem relabel_map_id (cs : List Chunk) :
    ∀ off, (relabel off cs).map Chunk.id = cs.map Chunk.id := by
  induction cs with
  | nil => intro off; rfl
  | cons c rest ih =>
    intro off
    simp only [relabel, List.map_cons, ih]

/-- Parsing a concatenation of location-independent fields recovers exactly
those fields, relocated. -/
theorem parse_loop_flatten (msg : List Nat) :
    ∀ (cs : List Chunk) (off : Nat),
      (∀ c ∈ cs, 1 ≤ c.length ∧ c.offset + c.length ≤ msg.length ∧
        ∀ rest, parse_field (chunkSlice msg c ++ rest) = .ok (c.id, c.length)) →
      parse_loop ((cs.map (chunkSlice msg)).flatten) off = .ok (relabel off cs) := by
  intro cs
  induction cs with
  | nil =>
    intro off _
    simp only [List.map_nil, List.flatten_nil, relabel]
    exact parse_loop_nil off
  | cons c rest ih =>
    intro off hprop
    obtain ⟨hpos, hbound, hlocal⟩ := hprop c (by simp)
    have hslen : (chunkSlice msg c).length = c.length := chunkSlice_length hbound
    simp only [List.map_cons, List.flatten_cons]
    set F := ((rest.map (chunkSlice msg)).flatten) with hF
    have hfield : parse_field (chunkSlice msg c ++ F) = .ok (c.id, c.length) := hlocal F
    cases hs : chunkSlice msg c ++ F with
    | nil =>
      exfalso
      have := congrArg List.length hs
      simp only [List.length_append, hslen, List.length_nil] at this
      omega
    | cons b bs =>
      have hlen_cs : c.length ≤ bs.length + 1 := by
        have := congrArg List.length hs
        simp only [List.length_append, hslen, List.length_cons] at this
        omega
      rw [parse_loop_cons_ok off (hs ▸ hfield) hlen_cs]
      have hdropF : (b :: bs).drop c.length = F := by
        rw [← hs, List.drop_append_of_le_length (by omega), ← hslen]
        simp
      rw [hdropF, ih (off + c.length)
        (fun c' hc' => hprop c' (List.mem_cons_of_mem _ hc'))]
      rfl

/-- `Chain'` of the id-ordering depends only on the ids. -/
theorem chain'_chunkLE_of_map_id {cs cs' : List Chunk}
    (h : cs.map Chunk.id = cs'.map Chunk.id) (hc : List.Chain' chunkLE cs) :
    List.Chain' chunkLE cs' := by
  have h1 : List.Chain' (· ≤ ·) (cs.map Chunk.id) := by
    rw [List.chain'_map]
    exact hc
  rw [h, List.chain'_map] at h1
  exact h1

/-! ### Claim C2 -/

/-- C2 (amended): for every message on which parsing succeeds, SortCopy and
SortInPlace succeed and both produce the same bytes — the concatenation of
the stable sort (a permutation) of the original chunks' byte ranges — whose
length equals the input length; and whenever no varint of any field is
truncated at the buffer end (`chunk_wf`), CheckSorted on that output returns
`true`. -/
theorem sort_output_spec {msg : List Nat} {chunks : List Chunk}
    (hp : parse_message msg = .ok chunks) :
    (sort_protobuf_message msg).map Cow.bytes =
      .ok (((sort_chunks chunks).map (chunkSlice msg)).flatten) ∧
    sort_protobuf_message_inplace msg =
      .ok (((sort_chunks chunks).map (chunkSlice msg)).flatten) ∧
    (((sort_chunks chunks).map (chunkSlice msg)).flatten).length = msg.length ∧
    List.Perm (sort_chunks chunks) chunks ∧
    ((∀ c ∈ chunks, chunk_wf (msg.drop c.offset) = true) →
      is_protobuf_message_sorted (((sort_chunks chunks).map (chunkSlice msg)).flatten) =
        .ok true) := by
  obtain ⟨htel, hsum, hmem⟩ := parse_message_sound hp
  obtain ⟨hds, hlen⟩ := do_sort_ok_of_parse hp
  have hperm := sort_chunks_perm chunks
  have hcond : (∀ c ∈ chunks, chunk_wf (msg.drop c.offset) = true) →
      is_protobuf_message_sorted (((sort_chunks chunks).map (chunkSlice msg)).flatten) =
        .ok true := by
    intro hwf
    have hprop : ∀ c ∈ sort_chunks chunks, 1 ≤ c.length ∧
        c.offset + c.length ≤ msg.length ∧
        ∀ rest, parse_field (chunkSlice msg c ++ rest) = .ok (c.id, c.length) := by
      intro c hc
      have hcm : c ∈ chunks := hperm.mem_iff.mp hc
      obtain ⟨hfc, hpos, hbound⟩ := hmem c hcm
      refine ⟨hpos, hbound, fun rest => ?_⟩
      have hle : c.length ≤ (msg.drop c.offset).length := by
        simp only [List.length_drop]
        omega
      exact parse_field_local hfc (hwf c hcm) hle rest
    have hpm : parse_message (((sort_chunks chunks).map (chunkSlice msg)).flatten) =
        .ok (relabel 0 (sort_chunks chunks)) :=
      parse_loop_flatten msg (sort_chunks chunks) 0 hprop
    have hsorted_rel : is_sorted (relabel 0 (sort_chunks chunks)) = true := by
      apply (is_sorted_iff_chain _).mpr
      apply chain'_chunkLE_of_map_id (relabel_map_id (sort_chunks chunks) 0).symm
      exact List.chain'_iff_pairwise.mpr (sort_chunks_sorted chunks)
    simp [is_protobuf_message_sorted, hpm, hsorted_rel]
  by_cases hs : is_sorted chunks = true
  · have hchain : List.Chain' chunkLE chunks := (is_sorted_iff_chain chunks).mp hs
    have hsort_eq : sort_chunks chunks = chunks := sort_chunks_of_sorted hchain
    have hout_eq : ((sort_chunks chunks).map (chunkSlice msg)).flatten = msg := by
      rw [hsort_eq, flatten_slices_eq msg chunks 0 htel (by omega), List.drop_zero]
    refine ⟨?_, ?_, hlen, hperm, hcond⟩
    · simp [sort_protobuf_message, hp, hs, Except.map, Cow.bytes, hout_eq]
    · simp [sort_protobuf_message_inplace, hp, hs, hout_eq]
  · refine ⟨?_, ?_, hlen, hperm, hcond⟩
    · simp [sort_protobuf_message, hp, hs, hds, Except.map, Cow.bytes]
    · simp [sort_protobuf_message_inplace, hp, hs, hds, hlen]

theorem sort_output_spec_witness :
    (sort_protobuf_message [16, 0, 8, 0]).map Cow.bytes =
      .ok (((sort_chunks [⟨2, 0, 2⟩, ⟨1, 2, 2⟩]).map (chunkSlice [16, 0, 8, 0])).flatten) ∧
    sort_protobuf_message_inplace [16, 0, 8, 0] =
      .ok (((sort_chunks [⟨2, 0, 2⟩, ⟨1, 2, 2⟩]).map (chunkSlice [16, 0, 8, 0])).flatten) ∧
    (((sort_chunks [⟨2, 0, 2⟩, ⟨1, 2, 2⟩]).map (chunkSlice [16, 0, 8, 0])).flatten).length =
      ([16, 0, 8, 0] : List Nat).length ∧
    List.Perm (sort_chunks [⟨2, 0, 2⟩, ⟨1, 2, 2⟩]) [⟨2, 0, 2⟩, ⟨1, 2, 2⟩] ∧
    ((∀ c ∈ ([⟨2, 0, 2⟩, ⟨1, 2, 2⟩] : List Chunk),
        chunk_wf (List.drop c.offset [16, 0, 8, 0]) = true) →
      is_protobuf_message_sorted
        (((sort_chunks [⟨2, 0, 2⟩, ⟨1, 2, 2⟩]).map (chunkSlice [16, 0, 8, 0])).flatten) =
        .ok true) :=
  sort_output_spec parse_ex_unsorted

/-- C2 (counterexample to the claim as stated): on `[0x10, 0x00, 0x08, 0x80]`
parsing succeeds (the final chunk's varint payload `0x80` is accepted though
truncated), SortCopy succeeds and returns `[0x08, 0x80, 0x10, 0x00]`, but
CheckSorted on that output is a parse failure — not `true` — because the
relocated truncated varint absorbs the next chunk's key byte on re-parse. -/
theorem sort_output_checksorted_fails :
    parse_message [16, 0, 8, 128] = .ok [⟨2, 0, 2⟩, ⟨1, 2, 2⟩] ∧
    sort_protobuf_message [16, 0, 8, 128] = .ok (.owned [8, 128, 16, 0]) ∧
    is_protobuf_message_sorted [8, 128, 16, 0] = .error .parseError := by
  refine ⟨parse_ex_truncated, ?_, ?_⟩
  · have h1 : is_sorted [⟨2, 0, 2⟩, ⟨1, 2, 2⟩] = false := rfl
    have h2 : do_sort [⟨2, 0, 2⟩, ⟨1, 2, 2⟩] [16, 0, 8, 128] = .ok [8, 128, 16, 0] := rfl
    simp [sort_protobuf_message, parse_ex_truncated, h1, h2]
  · simp [is_protobuf_message_sorted, parse_ex_reassembled]

/-! ### Claim C6: exactly when parsing raises the parse failure

In the `Except` embedding, an error result carries no chunks at all, so the
all-or-nothing "no partial output" part of the claim is inherent in the
result type: `parse_message` either returns the full chunk list or only the
error. -/

/-- The cursor offsets the scan loop visits on a buffer: offset `0`, and,
after each successfully decoded field that stays in bounds, the offset just
past that field. -/
inductive Reaches (msg : List Nat) : Nat → Prop where
  | zero : Reaches msg 0
  | step {off fid total : Nat} : Reaches msg off → off < msg.length →
      parse_field (msg.drop off) = .ok (fid, total) → off + total ≤ msg.length →
      Reaches msg (off + total)

theorem parse_loop_error_sound (msg : List Nat) :
    ∀ fuel off, msg.length - off ≤ fuel → off ≤ msg.length → Reaches msg off →
      parse_loop (msg.drop off) off = .error .parseError →
      ∃ off', Reaches msg off' ∧ off' < msg.length ∧
        parse_field (msg.drop off') = .error .parseError := by
  intro fuel
  induction fuel with
  | zero =>
    intro off hfuel hoff hr hp
    have hdrop : msg.drop off = [] := by
      apply List.eq_nil_of_length_eq_zero
      simp only [List.length_drop]
      omega
    rw [hdrop, parse_loop_nil] at hp
    cases hp
  | succ n ih =>
    intro off hfuel hoff hr hp
    cases hb : msg.drop off with
    | nil => rw [hb, parse_loop_nil] at hp; cases hp
    | cons b bs =>
      have hlen : msg.length - off = bs.length + 1 := by
        have := congrArg List.length hb
        simpa [List.length_drop] using this
      have hofflt : off < msg.length := by omega
      rw [hb] at hp
      cases hf : parse_field (b :: bs) with
      | error e =>
        rw [parse_loop_cons_err off hf] at hp
        cases hp
        exact ⟨off, hr, hofflt, by rw [hb]; exact hf⟩
      | ok p =>
        obtain ⟨fid, total⟩ := p
        have htotpos := parse_field_total_pos hf
        by_cases hle : total ≤ bs.length + 1
        · rw [parse_loop_cons_ok off hf hle] at hp
          have hdd : (b :: bs).drop total = msg.drop (off + total) := by
            rw [← hb, List.drop_drop, Nat.add_comm]
          rw [hdd] at hp
          cases hrec : parse_loop (msg.drop (off + total)) (off + total) with
          | error e2 =>
            rw [hrec] at hp
            simp only [] at hp
            cases hp
            exact ih (off + total) (by omega) (by omega)
              (Reaches.step hr hofflt (by rw [hb]; exact hf) (by omega)) hrec
          | ok rest =>
            rw [hrec] at hp
            simp only [] at hp
            cases hp
        · rw [parse_loop_cons_panic off hf (by omega)] at hp
          cases hp

theorem parse_loop_propagate (msg : List Nat) :
    ∀ off, Reaches msg off →
      parse_loop (msg.drop off) off = .error .parseError →
      parse_message msg = .error .parseError := by
  intro off hr
  induction hr with
  | zero =>
    intro h
    rw [List.drop_zero] at h
    exact h
  | @step off' fid total hr' hlt hf hle ih =>
    intro h
    apply ih
    cases hb : msg.drop off' with
    | nil =>
      exfalso
      have := congrArg List.length hb
      simp only [List.length_drop, List.length_nil] at this
      omega
    | cons b bs =>
      have hlen : msg.length - off' = bs.length + 1 := by
        have := congrArg List.length hb
        simpa [List.length_drop] using this
      rw [parse_loop_cons_ok off' (hb ▸ hf) (by omega)]
      have hdd : (b :: bs).drop total = msg.drop (off' + total) := by
        rw [← hb, List.drop_drop, Nat.add_comm]
      rw [hdd, h]

theorem parse_error_of_reaches {msg : List Nat} {off : Nat}
    (hr : Reaches msg off) (hlt : off < msg.length)
    (hf : parse_field (msg.drop off) = .error .parseError) :
    parse_message msg = .error .parseError := by
  apply parse_loop_propagate msg off hr
  cases hb : msg.drop off with
  | nil =>
    exfalso
    have := congrArg List.length hb
    simp only [List.length_drop, List.length_nil] at this
    omega
  | cons b bs =>
    exact parse_loop_cons_err off (hb ▸ hf)

/-- C6: `parse_message` returns the single parse-failure error exactly when
the scan reaches an offset at which one of the listed conditions holds for
the field decoded there: a second varint read is attempted on an empty
remaining slice (wire types 0 and 2), the declared size of a
length-delimited field exceeds `usize::MAX`, or the key's wire type is 3, 4,
or any value other than 0/1/2/5 — and in no other case. -/
theorem parse_error_characterization (msg : List Nat) :
    parse_message msg = .error .parseError ↔
    ∃ off, Reaches msg off ∧ off < msg.length ∧
      ∃ key len, read_varint (msg.drop off) = .ok (key, len) ∧
        (((key &&& 0x7 = 0 ∨ key &&& 0x7 = 2) ∧ (msg.drop off).drop len = [])
         ∨ (key &&& 0x7 = 2 ∧ ∃ v2 len2,
             read_varint ((msg.drop off).drop len) = .ok (v2, len2) ∧ USIZE_MAX < v2)
         ∨ key &&& 0x7 = 3 ∨ key &&& 0x7 = 4
         ∨ ¬ (key &&& 0x7 = 0 ∨ key &&& 0x7 = 1 ∨ key &&& 0x7 = 2 ∨ key &&& 0x7 = 5)) := by
  constructor
  · intro h
    have h0 : parse_loop (msg.drop 0) 0 = .error .parseError := by
      rw [List.drop_zero]
      exact h
    obtain ⟨off, hr, hlt, hferr⟩ :=
      parse_loop_error_sound msg msg.length 0 (by omega) (by omega) Reaches.zero h0
    obtain ⟨-, hcond⟩ := parse_field_error_inv hferr
    rcases hcond with hnil | ⟨key, len, hk, hcond⟩
    · exfalso
      have := congrArg List.length hnil
      simp only [List.length_drop, List.length_nil] at this
      omega
    · exact ⟨off, hr, hlt, key, len, hk, hcond⟩
  · rintro ⟨off, hr, hlt, key, len, hk, hcond⟩
    apply parse_error_of_reaches hr hlt
    rcases hcond with ⟨hw, hdrop⟩ | ⟨hw, v2, len2, h2, hv⟩ | hw | hw | hw
    · exact parse_field_second_empty hk hw hdrop
    · exact parse_field_wire2_overflow hk hw h2 hv
    · exact parse_field_badwire hk (Or.inl hw)
    · exact parse_field_badwire hk (Or.inr (Or.inl hw))
    · have h7 := wire_type_le key
      have hwt : key &&& 0x7 = 3 ∨ key &&& 0x7 = 4 ∨ key &&& 0x7 = 6 ∨ key &&& 0x7 = 7 := by
        by_contra hcon
        push_neg at hcon
        apply hw
        omega
      exact parse_field_badwire hk hwt

end Protofixer
